import Mathlib

/-!
Verification of the SS58 address codec (`src/tools/ss58_to_pub32.py`).

The repository's core logic is `ss58_to_pub32`: Base58-decode an SS58
address string, split the buffer into a network tag (1 or 2 bytes,
chosen by comparing the first decoded byte with 64), a 32-byte public
key and a 2-byte checksum, recompute the checksum as the first 2 bytes
of BLAKE2b-512 over `"SS58PRE" || tag || key`, and return the key (hex
or raw) when the checksums agree.

This file embeds that routine shallowly: bytes are `Nat`s below 256,
byte strings are `List Nat`, the Base58 library call and the BLAKE2b
hash are implemented from their standard definitions (RFC 7693 for
BLAKE2b; the usual big-integer base conversion for Base58), and the
Python exceptions become an explicit error type.
-/

set_option maxRecDepth 100000

namespace Sink

/-! ## Positional base conversion

Shared by the Base58 text codec and the byte (base-256) conversion the
Base58 library performs internally.  `toDigits b n` is the big-endian
digit list of `n` (empty for 0, leading digit nonzero otherwise);
`ofDigits` is Horner evaluation. -/

/-- Big-endian digits, fuelled so the recursion is structural (the fuel
used is always at least the value, which bounds the digit count). -/
def toDigitsAux (b : Nat) : Nat → Nat → List Nat
  | 0, _ => []
  | fuel + 1, n => if n = 0 then [] else toDigitsAux b fuel (n / b) ++ [n % b]

/-- Big-endian digits of `n` in base `b` (`2 ≤ b`); `[]` for `0`. -/
def toDigits (b : Nat) (hb : 2 ≤ b) (n : Nat) : List Nat :=
  toDigitsAux b n n

/-- Horner evaluation of a big-endian digit list in base `b`. -/
def ofDigits (b : Nat) (ds : List Nat) : Nat :=
  ds.foldl (fun a d => a * b + d) 0

/-! ## Base58

The source calls `base58.b58decode` (and an encode direction exists only
in the spec).  The library interprets the string as a big-endian base-58
number over the Bitcoin alphabet, maps leading `'1'` characters to
leading zero bytes, and raises on any character outside the alphabet
(modelled as `none`). -/

/-- The Bitcoin Base58 alphabet: 58 characters, excluding `0`, `O`, `I`
and `l`. -/
def b58chars : List Char :=
  "123456789ABCDEFGHJKLMNPQRSTUVWXYZabcdefghijkmnopqrstuvwxyz".data

/-- Digit value of one character, `none` outside the alphabet. -/
def charIndex (c : Char) : Option Nat :=
  if c ∈ b58chars then some (b58chars.indexOf c) else none

/-- Digit values of a character list; `none` as soon as one character is
outside the alphabet. -/
def digitsOf : List Char → Option (List Nat)
  | [] => some []
  | c :: cs =>
    match charIndex c, digitsOf cs with
    | some d, some ds => some (d :: ds)
    | _, _ => none

/-- The library call `base58.b58decode`: strip leading zero digits (`'1'` characters),
read the remainder as a base-58 number, and emit one zero byte per
stripped character followed by the minimal big-endian bytes of that
number.  `none` on a character outside the alphabet. -/
def b58decode (s : String) : Option (List Nat) :=
  match digitsOf s.data with
  | none => none
  | some ds =>
    let rest := ds.dropWhile (fun d => d == 0)
    some (List.replicate (ds.takeWhile (fun d => d == 0)).length 0 ++
      toDigits 256 (by decide) (ofDigits 58 rest))

/-- Character of one Base58 digit (digits are below 58 wherever this is
used). -/
def b58char (d : Nat) : Char := b58chars.getD d ' '

/-- The library call `base58.b58encode`: one `'1'` per leading zero byte, then the
base-58 digits of the remaining big-endian number. -/
def b58encode (v : List Nat) : String :=
  let rest := v.dropWhile (fun x => x == 0)
  String.mk (List.replicate (v.takeWhile (fun x => x == 0)).length '1' ++
    (toDigits 58 (by decide) (ofDigits 256 rest)).map b58char)

/-! ## BLAKE2b (RFC 7693)

The source calls `hashlib.blake2b(msg, digest_size=64)`.  Words are
64-bit, modelled as `Nat` reduced modulo `2 ^ 64`; the state is a list
of words. -/

/-- Reduce to a 64-bit word. -/
def wrap64 (x : Nat) : Nat := x % (2 ^ 64)

/-- Right rotation of a 64-bit word. -/
def rotr64 (x n : Nat) : Nat := wrap64 ((x >>> n) ||| (x <<< (64 - n)))

/-- BLAKE2b initialization vector (the SHA-512 IV). -/
def blakeIV : List Nat :=
  [0x6a09e667f3bcc908, 0xbb67ae8584caa73b, 0x3c6ef372fe94f82b, 0xa54ff53a5f1d36f1,
   0x510e527fade682d1, 0x9b05688c2b3e6c1f, 0x1f83d9abfb41bd6b, 0x5be0cd19137e2179]

/-- The message-word permutation schedule. -/
def blakeSigma : List (List Nat) :=
  [[0, 1, 2, 3, 4, 5, 6, 7, 8, 9, 10, 11, 12, 13, 14, 15],
   [14, 10, 4, 8, 9, 15, 13, 6, 1, 12, 0, 2, 11, 7, 5, 3],
   [11, 8, 12, 0, 5, 2, 15, 13, 10, 14, 3, 6, 7, 1, 9, 4],
   [7, 9, 3, 1, 13, 12, 11, 14, 2, 6, 5, 10, 4, 0, 15, 8],
   [9, 0, 5, 7, 2, 4, 10, 15, 14, 1, 11, 12, 6, 8, 3, 13],
   [2, 12, 6, 10, 0, 11, 8, 3, 4, 13, 7, 5, 15, 14, 1, 9],
   [12, 5, 1, 15, 14, 13, 4, 10, 0, 7, 6, 3, 9, 2, 8, 11],
   [13, 11, 7, 14, 12, 1, 3, 9, 5, 0, 15, 4, 8, 6, 2, 10],
   [6, 15, 14, 9, 11, 3, 0, 8, 12, 2, 13, 7, 1, 4, 10, 5],
   [10, 2, 8, 4, 7, 6, 1, 5, 15, 11, 9, 14, 3, 12, 13, 0]]

/-- The G mixing function applied to state positions `a b c d` with
message words `x y`. -/
def gMix (v : List Nat) (a b c d x y : Nat) : List Nat :=
  let va := wrap64 (v.getD a 0 + v.getD b 0 + x)
  let vd := rotr64 ((v.getD d 0) ^^^ va) 32
  let vc := wrap64 (v.getD c 0 + vd)
  let vb := rotr64 ((v.getD b 0) ^^^ vc) 24
  let va2 := wrap64 (va + vb + y)
  let vd2 := rotr64 (vd ^^^ va2) 16
  let vc2 := wrap64 (vc + vd2)
  let vb2 := rotr64 (vb ^^^ vc2) 63
  (((v.set a va2).set b vb2).set c vc2).set d vd2

/-- One round of the compression function. -/
def blakeRound (m v : List Nat) (r : Nat) : List Nat :=
  let s := blakeSigma.getD (r % 10) []
  let mi := fun i => m.getD (s.getD i 0) 0
  let v1 := gMix v 0 4 8 12 (mi 0) (mi 1)
  let v2 := gMix v1 1 5 9 13 (mi 2) (mi 3)
  let v3 := gMix v2 2 6 10 14 (mi 4) (mi 5)
  let v4 := gMix v3 3 7 11 15 (mi 6) (mi 7)
  let v5 := gMix v4 0 5 10 15 (mi 8) (mi 9)
  let v6 := gMix v5 1 6 11 12 (mi 10) (mi 11)
  let v7 := gMix v6 2 7 8 13 (mi 12) (mi 13)
  gMix v7 3 4 9 14 (mi 14) (mi 15)

/-- The BLAKE2b compression function `F(h, m, t, f)`: `h` the 8 chain
words, `m` the 16 message words, `t` the byte offset, `f` the final-block
flag. -/
def blakeCompress (h m : List Nat) (t : Nat) (f : Bool) : List Nat :=
  let v := h ++ blakeIV
  let v := v.set 12 ((v.getD 12 0) ^^^ wrap64 t)
  let v := v.set 13 ((v.getD 13 0) ^^^ (t / 2 ^ 64))
  let v := if f then v.set 14 ((v.getD 14 0) ^^^ (2 ^ 64 - 1)) else v
  let v := (List.range 12).foldl (fun w r => blakeRound m w r) v
  (List.range 8).map (fun i => (h.getD i 0) ^^^ (v.getD i 0) ^^^ (v.getD (i + 8) 0))

/-- Little-endian word of up to 8 bytes. -/
def wordOfBytesLE (bs : List Nat) : Nat :=
  bs.foldr (fun b acc => acc * 256 + b) 0

/-- The 16 message words of one 128-byte block, zero-padded. -/
def wordsOfBlock (block : List Nat) : List Nat :=
  (List.range 16).map (fun i => wordOfBytesLE ((block.drop (8 * i)).take 8))

/-- Process the message: every full block but the last with `f = false`,
the final (possibly short or empty) block with `f = true`.  Fuelled so
the recursion is structural; the fuel used is the message length, which
bounds the block count. -/
def blakeLoopAux (fuel : Nat) (h : List Nat) (t : Nat) (rest : List Nat) : List Nat :=
  match fuel with
  | 0 => blakeCompress h (wordsOfBlock rest) (t + rest.length) true
  | fuel + 1 =>
    if rest.length ≤ 128 then
      blakeCompress h (wordsOfBlock rest) (t + rest.length) true
    else
      blakeLoopAux fuel (blakeCompress h (wordsOfBlock (rest.take 128)) (t + 128) false)
        (t + 128) (rest.drop 128)

def blakeLoop (h : List Nat) (t : Nat) (rest : List Nat) : List Nat :=
  blakeLoopAux rest.length h t rest

/-- The library call `hashlib.blake2b(msg, digest_size=64).digest()`: the 64-byte digest
of `msg` (no key, no salt), as a list of bytes. -/
def blake2b (msg : List Nat) : List Nat :=
  let h0 := blakeIV.set 0 ((blakeIV.getD 0 0) ^^^ 0x01010040)
  let hw := blakeLoop h0 0 msg
  (List.range 64).map (fun i => (hw.getD (i / 8) 0 >>> (8 * (i % 8))) % 256)

/-! ## The SS58 codec (`ss58_to_pub32` in `src/tools/ss58_to_pub32.py`) -/

/-- The failure outcomes of the codec.  `decodeError` is the Base58
library's invalid-character exception, `indexError` is Python's
`IndexError` from `data[0]` on an empty buffer, `checksumError` is the
source's `ValueError("Invalid SS58 checksum")`.  `invalidInput` exists
only for the spec's encode direction. -/
inductive Ss58Error
  | decodeError
  | indexError
  | checksumError
  | invalidInput
  deriving DecidableEq

/-- Python slice `data[a:b]` on a byte list. -/
def slice (data : List Nat) (a b : Nat) : List Nat := (data.drop a).take (b - a)

/-- The domain-separation tag `b"SS58PRE"` as bytes. -/
def ss58preTag : List Nat := [83, 83, 53, 56, 80, 82, 69]

/-- The field split of the decoded buffer into network tag, public key
and checksum: slices `[0:1]`, `[1:33]`, `[33:35]` when the first byte
is below 64, else `[0:2]`, `[2:34]`, `[34:36]`. -/
def splitFields (data : List Nat) : List Nat × List Nat × List Nat :=
  if data.headD 0 < 64 then
    (slice data 0 1, slice data 1 33, slice data 33 35)
  else
    (slice data 0 2, slice data 2 34, slice data 34 36)

/-- The body of `ss58_to_pub32` after Base58 decoding: index `data[0]`
(an index error on an empty buffer), split the fields, recompute the
checksum as the first 2 bytes of BLAKE2b-512 over
`"SS58PRE" || tag || key`, and compare for exact equality. -/
def ss58_to_pub32_bytes (data : List Nat) : Except Ss58Error (List Nat) :=
  match data with
  | [] => .error .indexError
  | _ :: _ =>
    let f := splitFields data
    let h := blake2b (ss58preTag ++ f.1 ++ f.2.1)
    if f.2.2 = h.take 2 then .ok f.2.1 else .error .checksumError

/-- One lowercase hexadecimal digit. -/
def hexChar (n : Nat) : Char :=
  if n < 10 then Char.ofNat (48 + n) else Char.ofNat (87 + n)

/-- Python's `bytes.hex()`: lowercase, two digits per byte. -/
def bytesToHex (bs : List Nat) : String :=
  String.mk ((bs.map (fun b => [hexChar (b / 16), hexChar (b % 16)])).flatten)

/-- The function `ss58_to_pub32(ss58_address, as_hex)`: the full routine.  The
Python return type `str | bytes` becomes a sum; exceptions become
`Except.error`. -/
def ss58_to_pub32 (ss58_address : String) (as_hex : Bool) :
    Except Ss58Error (String ⊕ List Nat) :=
  match b58decode ss58_address with
  | none => .error .decodeError
  | some data =>
    (ss58_to_pub32_bytes data).map
      (fun pubkey => if as_hex then .inl ("0x" ++ bytesToHex pubkey) else .inr pubkey)

/-- Modelled from the spec: the `encode` operation is absent from the
repository (the spec introduces it for round-trip testability, §4.1).
Per the spec's algorithm: require a 32-byte public key and a 1-or-2-byte
network tag (`InvalidInputError` otherwise), compute the first 2 bytes
of BLAKE2b-512 over `"SS58PRE" || tag || key` as checksum, and
Base58-encode `tag || key || checksum`. -/
def ss58_encode (public_key pfx : List Nat) : Except Ss58Error String :=
  if public_key.length = 32 ∧ (pfx.length = 1 ∨ pfx.length = 2) then
    .ok (b58encode (pfx ++ public_key ++
      (blake2b (ss58preTag ++ pfx ++ public_key)).take 2))
  else
    .error .invalidInput

/-- A minimal valid 35-byte buffer: network tag `0`, all-zero public
key, and the matching checksum. -/
def okBuf35 : List Nat :=
  [0] ++ List.replicate 32 0 ++
    (blake2b (ss58preTag ++ [0] ++ List.replicate 32 0)).take 2

/-! ## Lemmas: base conversion, Base58, BLAKE2b -/

theorem toDigitsAux_zero (b : Nat) (fuel : Nat) : toDigitsAux b fuel 0 = [] := by
  cases fuel <;> simp [toDigitsAux]

theorem toDigitsAux_fuel (b : Nat) (hb : 2 ≤ b) :
    ∀ fuel fuel2 n, n ≤ fuel → n ≤ fuel2 →
      toDigitsAux b fuel n = toDigitsAux b fuel2 n := by
  intro fuel
  induction fuel with
  | zero =>
    intro fuel2 n h1 _
    have : n = 0 := Nat.le_zero.mp h1
    rw [this, toDigitsAux_zero, toDigitsAux_zero]
  | succ f ih =>
    intro fuel2 n h1 h2
    by_cases hn : n = 0
    · rw [hn, toDigitsAux_zero, toDigitsAux_zero]
    · obtain ⟨f2, rfl⟩ : ∃ f2, fuel2 = f2 + 1 := by
        cases fuel2 with
        | zero => exact absurd (Nat.le_zero.mp h2) hn
        | succ f2 => exact ⟨f2, rfl⟩
      rw [toDigitsAux, toDigitsAux, if_neg hn, if_neg hn]
      have hdivf : n / b ≤ f := by
        have h2b : n / b ≤ n / 2 := Nat.div_le_div_left hb (by omega)
        omega
      have hdivf2 : n / b ≤ f2 := by
        have h2b : n / b ≤ n / 2 := Nat.div_le_div_left hb (by omega)
        omega
      rw [ih f2 (n / b) hdivf hdivf2]

theorem toDigits_zero (b : Nat) (hb : 2 ≤ b) : toDigits b hb 0 = [] := by
  rw [toDigits, toDigitsAux_zero]

theorem toDigits_eq_of_pos (b : Nat) (hb : 2 ≤ b) (n : Nat) (hn : n ≠ 0) :
    toDigits b hb n = toDigits b hb (n / b) ++ [n % b] := by
  obtain ⟨m, rfl⟩ : ∃ m, n = m + 1 := by
    cases n with
    | zero => exact absurd rfl hn
    | succ m => exact ⟨m, rfl⟩
  rw [toDigits, toDigits, toDigitsAux, if_neg hn]
  have hle : (m + 1) / b ≤ m := by
    have h2b : (m + 1) / b ≤ (m + 1) / 2 := Nat.div_le_div_left hb (by omega)
    omega
  rw [toDigitsAux_fuel b hb m ((m + 1) / b) ((m + 1) / b) hle (Nat.le_refl _)]

theorem ofDigits_append_single (b : Nat) (ds : List Nat) (d : Nat) :
    ofDigits b (ds ++ [d]) = ofDigits b ds * b + d := by
  simp [ofDigits, List.foldl_append]

theorem ofDigits_toDigits (b : Nat) (hb : 2 ≤ b) (n : Nat) :
    ofDigits b (toDigits b hb n) = n := by
  induction n using Nat.strong_induction_on with
  | _ n ih =>
    by_cases hn : n = 0
    · subst hn; rw [toDigits_zero]; rfl
    · rw [toDigits_eq_of_pos b hb n hn, ofDigits_append_single,
        ih (n / b) (Nat.div_lt_self (Nat.pos_of_ne_zero hn) (by omega)),
        Nat.mul_comm]
      exact Nat.div_add_mod n b

theorem toDigits_lt (b : Nat) (hb : 2 ≤ b) (n : Nat) :
    ∀ d ∈ toDigits b hb n, d < b := by
  induction n using Nat.strong_induction_on with
  | _ n ih =>
    by_cases hn : n = 0
    · subst hn; rw [toDigits_zero]; intro d hd; cases hd
    · rw [toDigits_eq_of_pos b hb n hn]
      intro d hd
      rcases List.mem_append.mp hd with h | h
      · exact ih (n / b) (Nat.div_lt_self (Nat.pos_of_ne_zero hn) (by omega)) d h
      · rcases List.mem_singleton.mp h with rfl
        exact Nat.mod_lt n (by omega)

theorem toDigits_head_ne_zero (b : Nat) (hb : 2 ≤ b) (n : Nat) (hn : n ≠ 0) :
    ∃ d ds, toDigits b hb n = d :: ds ∧ d ≠ 0 := by
  induction n using Nat.strong_induction_on with
  | _ n ih =>
    rw [toDigits_eq_of_pos b hb n hn]
    by_cases hdiv : n / b = 0
    · refine ⟨n % b, [], ?_, ?_⟩
      · rw [hdiv, toDigits_zero]; rfl
      · have hlt : n < b := (Nat.div_eq_zero_iff (by omega)).mp hdiv
        rw [Nat.mod_eq_of_lt hlt]
        exact hn
    · obtain ⟨d, ds, hds, hd⟩ :=
        ih (n / b) (Nat.div_lt_self (Nat.pos_of_ne_zero hn) (by omega)) hdiv
      exact ⟨d, ds ++ [n % b], by rw [hds]; rfl, hd⟩

theorem ofDigits_foldl_ge (b : Nat) (hb : 2 ≤ b) (ds : List Nat) (a : Nat) :
    a * b ^ ds.length ≤ ds.foldl (fun x d => x * b + d) a := by
  induction ds generalizing a with
  | nil => simp
  | cons d ds ih =>
    have h1 : a * b ^ (d :: ds).length = a * b * b ^ ds.length := by
      rw [List.length_cons, Nat.pow_succ]; ring
    have h2 : a * b * b ^ ds.length ≤ (a * b + d) * b ^ ds.length :=
      Nat.mul_le_mul_right _ (Nat.le_add_right _ _)
    have h3 := ih (a * b + d)
    simp only [List.foldl_cons]
    exact Nat.le_trans (Nat.le_of_eq h1) (Nat.le_trans h2 h3)

theorem ofDigits_pos (b : Nat) (hb : 2 ≤ b) (d : Nat) (ds : List Nat) (hd : d ≠ 0) :
    0 < ofDigits b (d :: ds) := by
  have h1 : d * b ^ ds.length ≤ ofDigits b (d :: ds) := by
    have := ofDigits_foldl_ge b hb ds d
    simpa [ofDigits] using this
  have h2 : 0 < d * b ^ ds.length :=
    Nat.mul_pos (Nat.pos_of_ne_zero hd) (Nat.pos_pow_of_pos _ (by omega))
  omega

theorem toDigits_ofDigits (b : Nat) (hb : 2 ≤ b) (ds : List Nat)
    (hlt : ∀ d ∈ ds, d < b) (hhead : ∀ d tl, ds = d :: tl → d ≠ 0) :
    toDigits b hb (ofDigits b ds) = ds := by
  induction ds using List.reverseRecOn with
  | nil => simpa [ofDigits] using toDigits_zero b hb
  | append_singleton ds d ih =>
    rw [ofDigits_append_single]
    cases ds with
    | nil =>
      have hd0 : d ≠ 0 := hhead d [] rfl
      have hdb : d < b := hlt d (by simp)
      rw [toDigits_eq_of_pos b hb _ (by simpa [ofDigits] using hd0)]
      simp [ofDigits, Nat.div_eq_of_lt hdb, Nat.mod_eq_of_lt hdb, toDigits_zero]
    | cons x xs =>
      have hx0 : x ≠ 0 := hhead x (xs ++ [d]) rfl
      have hpos : 0 < ofDigits b (x :: xs) := ofDigits_pos b hb x xs hx0
      have hdb : d < b := hlt d (by simp)
      have hne : ofDigits b (x :: xs) * b + d ≠ 0 := by
        have : b ≤ ofDigits b (x :: xs) * b := Nat.le_mul_of_pos_left b hpos
        omega
      rw [toDigits_eq_of_pos b hb _ hne]
      have hdiv : (ofDigits b (x :: xs) * b + d) / b = ofDigits b (x :: xs) := by
        rw [Nat.mul_comm, Nat.mul_add_div (by omega : 0 < b), Nat.div_eq_of_lt hdb,
          Nat.add_zero]
      have hmod : (ofDigits b (x :: xs) * b + d) % b = d := by
        rw [Nat.mul_comm, Nat.mul_add_mod, Nat.mod_eq_of_lt hdb]
      have hlt2 : ∀ e ∈ x :: xs, e < b := by
        intro e he
        apply hlt
        simp only [List.cons_append, List.mem_cons, List.mem_append] at he ⊢
        tauto
      have hhead2 : ∀ e tl, x :: xs = e :: tl → e ≠ 0 := by
        intro e tl hetl
        injection hetl with h1 h2
        exact h1 ▸ hx0
      rw [hdiv, hmod, ih hlt2 hhead2]

theorem charIndex_b58char {d : Nat} (hd : d < 58) : charIndex (b58char d) = some d := by
  have h : ∀ i : Fin 58, charIndex (b58char i.val) = some i.val := by decide
  exact h ⟨d, hd⟩

theorem digitsOf_append (l1 l2 : List Char) :
    digitsOf (l1 ++ l2) =
      (digitsOf l1).bind fun a => (digitsOf l2).map fun b => a ++ b := by
  induction l1 with
  | nil => cases h2 : digitsOf l2 <;> simp [digitsOf, h2]
  | cons c cs ih =>
    cases hc : charIndex c <;> cases hcs : digitsOf cs <;> cases h2 : digitsOf l2 <;>
      simp_all [digitsOf, List.append_eq]

theorem digitsOf_replicate_one (z : Nat) :
    digitsOf (List.replicate z '1') = some (List.replicate z 0) := by
  induction z with
  | zero => rfl
  | succ n ih =>
    have h1 : charIndex '1' = some 0 := by decide
    simp only [List.replicate_succ, digitsOf, h1, ih]

theorem digitsOf_map_b58char (ds : List Nat) (h : ∀ d ∈ ds, d < 58) :
    digitsOf (ds.map b58char) = some ds := by
  induction ds with
  | nil => rfl
  | cons d tl ih =>
    simp only [List.map_cons, digitsOf,
      charIndex_b58char (h d (List.mem_cons_self d tl)),
      ih (fun e he => h e (List.mem_cons_of_mem d he))]

theorem takeWhile_append_of_all {α : Type} (p : α → Bool) (l1 l2 : List α)
    (h : ∀ a ∈ l1, p a = true) :
    (l1 ++ l2).takeWhile p = l1 ++ l2.takeWhile p := by
  induction l1 with
  | nil => rfl
  | cons a tl ih =>
    simp only [List.cons_append, List.takeWhile_cons,
      h a (List.mem_cons_self a tl),
      ih (fun e he => h e (List.mem_cons_of_mem a he))]
    simp

theorem dropWhile_append_of_all {α : Type} (p : α → Bool) (l1 l2 : List α)
    (h : ∀ a ∈ l1, p a = true) :
    (l1 ++ l2).dropWhile p = l2.dropWhile p := by
  induction l1 with
  | nil => rfl
  | cons a tl ih =>
    simp only [List.cons_append, List.dropWhile_cons,
      h a (List.mem_cons_self a tl),
      ih (fun e he => h e (List.mem_cons_of_mem a he))]
    simp

theorem head_dropWhile_false {α : Type} (p : α → Bool) (l : List α) (x : α)
    (xs : List α) (h : l.dropWhile p = x :: xs) : p x = false := by
  induction l with
  | nil => cases h
  | cons a tl ih =>
    rw [List.dropWhile_cons] at h
    by_cases hp : p a = true
    · rw [if_pos hp] at h
      exact ih h
    · rw [if_neg hp] at h
      injection h with h1 h2
      rw [← h1]
      exact Bool.not_eq_true _ ▸ hp

theorem mem_of_mem_dropWhile {α : Type} (p : α → Bool) (l : List α) (x : α)
    (h : x ∈ l.dropWhile p) : x ∈ l := by
  induction l with
  | nil => cases h
  | cons a tl ih =>
    rw [List.dropWhile_cons] at h
    by_cases hp : p a = true
    · rw [if_pos hp] at h
      exact List.mem_cons_of_mem a (ih h)
    · rw [if_neg hp] at h
      exact h

theorem takeWhile_all_eq {α : Type} (p : α → Bool) (l : List α) :
    ∀ x ∈ l.takeWhile p, p x = true := by
  induction l with
  | nil => intro x h; cases h
  | cons a tl ih =>
    intro x h
    rw [List.takeWhile_cons] at h
    by_cases hp : p a = true
    · rw [if_pos hp] at h
      rcases List.mem_cons.mp h with rfl | h2
      · exact hp
      · exact ih x h2
    · rw [if_neg hp] at h
      cases h

/-- Base58 round trip: decoding an encoded byte string (all entries
below 256) recovers it exactly. -/
theorem b58decode_b58encode (v : List Nat) (hv : ∀ x ∈ v, x < 256) :
    b58decode (b58encode v) = some v := by
  have h58 : (2 : Nat) ≤ 58 := by decide
  have h256 : (2 : Nat) ≤ 256 := by decide
  set rest := v.dropWhile (fun x => x == 0) with hrest
  set z := (v.takeWhile (fun x => x == 0)).length with hz
  set N := ofDigits 256 rest with hN
  set ds := toDigits 58 (by decide) N with hds
  -- the encoded character list decodes digit-by-digit
  have hdigits : digitsOf (List.replicate z '1' ++ ds.map b58char) =
      some (List.replicate z 0 ++ ds) := by
    rw [digitsOf_append, digitsOf_replicate_one,
      digitsOf_map_b58char ds (toDigits_lt 58 (by decide) N)]
    rfl
  have hdata : (b58encode v).data = List.replicate z '1' ++ ds.map b58char := rfl
  rw [b58decode, hdata, hdigits]
  dsimp only
  -- leading zeros versus the nonzero-head digit list
  have hsplit : ((List.replicate z 0 ++ ds).takeWhile (fun d => d == 0)).length = z ∧
      (List.replicate z 0 ++ ds).dropWhile (fun d => d == 0) = ds := by
    have hall : ∀ a ∈ List.replicate z (0 : Nat), (a == 0) = true := by
      intro a ha
      rw [List.eq_of_mem_replicate ha]
      rfl
    rw [takeWhile_append_of_all _ _ _ hall, dropWhile_append_of_all _ _ _ hall]
    by_cases hN0 : N = 0
    · rw [hds, hN0, toDigits_zero]
      simp
    · obtain ⟨d, tl, hdt, hd0⟩ := toDigits_head_ne_zero 58 (by decide) N hN0
      rw [← hds] at hdt
      rw [hdt, List.takeWhile_cons, List.dropWhile_cons]
      have : (d == 0) = false := by
        rw [beq_eq_false_iff_ne]
        exact hd0
      rw [this]
      simp
  rw [hsplit.2, hsplit.1]
  -- the stripped digits evaluate back to N, whose bytes are rest
  have hvals : ofDigits 58 ds = N := ofDigits_toDigits 58 (by decide) N
  have hbytes : toDigits 256 (by decide) (ofDigits 58 ds) = rest := by
    rw [hvals, hN]
    apply toDigits_ofDigits 256 h256 rest
    · intro x hx
      exact hv x (mem_of_mem_dropWhile _ _ _ hx)
    · intro d tl hdt
      have := head_dropWhile_false (fun x => x == 0) v d tl (hrest ▸ hdt)
      rw [beq_eq_false_iff_ne] at this
      exact this
  rw [hbytes]
  -- and the leading zeros are exactly the bytes stripped from v
  have htake : List.replicate z 0 = v.takeWhile (fun x => x == 0) := by
    symm
    rw [List.eq_replicate_iff]
    refine ⟨hz.symm, ?_⟩
    intro b hb
    have hbeq := takeWhile_all_eq (fun x => x == 0) v b hb
    simp only [beq_iff_eq] at hbeq
    exact hbeq
  rw [htake, List.takeWhile_append_dropWhile]

theorem blake2b_length (msg : List Nat) : (blake2b msg).length = 64 := by
  simp [blake2b]

theorem blake2b_lt (msg : List Nat) : ∀ b ∈ blake2b msg, b < 256 := by
  intro b hb
  simp only [blake2b, List.mem_map] at hb
  obtain ⟨i, _, hib⟩ := hb
  rw [← hib]
  exact Nat.mod_lt _ (by decide)

/-! ## Helper lemmas about the codec -/

theorem except_map_ok {ε α β : Type} (f : α → β) (e : Except ε α) (r : β)
    (h : e.map f = .ok r) : ∃ a, e = .ok a ∧ r = f a := by
  cases e with
  | error x => simp [Except.map] at h
  | ok a =>
    refine ⟨a, rfl, ?_⟩
    simp only [Except.map, Except.ok.injEq] at h
    exact h.symm

theorem except_map_error_iff {ε α β : Type} (f : α → β) (e : Except ε α) (x : ε) :
    e.map f = .error x ↔ e = .error x := by
  cases e <;> simp [Except.map]

theorem slice_length (data : List Nat) (a b : Nat) :
    (slice data a b).length = min (b - a) (data.length - a) := by
  simp [slice]

theorem blake2b_take2_length (m : List Nat) : ((blake2b m).take 2).length = 2 := by
  rw [List.length_take, blake2b_length]
  decide

/-- On a nonempty buffer too short for its branch, the checksum slice
has fewer than 2 bytes while the recomputed checksum has 2, so the
comparison fails. -/
theorem short_checksum_core (data : List Nat) (hne : data ≠ [])
    (hshort : (data.headD 0 < 64 ∧ data.length < 35) ∨
      (64 ≤ data.headD 0 ∧ data.length < 36)) :
    (splitFields data).2.2.length < 2 ∧
      ss58_to_pub32_bytes data = .error .checksumError := by
  obtain ⟨b, tl, rfl⟩ : ∃ b tl, data = b :: tl := by
    cases data with
    | nil => exact absurd rfl hne
    | cons b tl => exact ⟨b, tl, rfl⟩
  have hcl : (splitFields (b :: tl)).2.2.length < 2 := by
    rcases hshort with ⟨hb, hlen⟩ | ⟨hb, hlen⟩
    · rw [splitFields, if_pos (by simpa using hb)]
      have := slice_length (b :: tl) 33 35
      simp only [this]
      omega
    · rw [splitFields, if_neg (by simpa using Nat.not_lt.mpr hb)]
      have := slice_length (b :: tl) 34 36
      simp only [this]
      omega
  refine ⟨hcl, ?_⟩
  have hne2 : (splitFields (b :: tl)).2.2 ≠
      (blake2b (ss58preTag ++ (splitFields (b :: tl)).1 ++
        (splitFields (b :: tl)).2.1)).take 2 := by
    intro he
    rw [he, blake2b_take2_length] at hcl
    omega
  rw [ss58_to_pub32_bytes]
  simp only [if_neg hne2]

/-- On success, the buffer is nonempty, at least 35 bytes (36 for the
wide branch), and the returned key is the 32-byte public-key slice. -/
theorem ok_min_length_core (data k : List Nat)
    (hok : ss58_to_pub32_bytes data = .ok k) :
    data ≠ [] ∧ 35 ≤ data.length ∧ (64 ≤ data.headD 0 → 36 ≤ data.length) ∧
      k = (splitFields data).2.1 ∧ k.length = 32 := by
  cases data with
  | nil => simp [ss58_to_pub32_bytes] at hok
  | cons b tl =>
    rw [ss58_to_pub32_bytes] at hok
    by_cases hc : (splitFields (b :: tl)).2.2 =
        (blake2b (ss58preTag ++ (splitFields (b :: tl)).1 ++
          (splitFields (b :: tl)).2.1)).take 2
    · rw [if_pos hc] at hok
      have hk : k = (splitFields (b :: tl)).2.1 := by
        injection hok with h
        exact h.symm
      have hclen : (splitFields (b :: tl)).2.2.length = 2 := by
        rw [hc, blake2b_take2_length]
      by_cases hb : b < 64
      · have hsplit : splitFields (b :: tl) =
            (slice (b :: tl) 0 1, slice (b :: tl) 1 33, slice (b :: tl) 33 35) := by
          rw [splitFields, if_pos (by simpa using hb)]
        have hclen2 : (slice (b :: tl) 33 35).length = 2 := by
          rw [hsplit] at hclen
          exact hclen
        have h35 : 35 ≤ (b :: tl).length := by
          have := slice_length (b :: tl) 33 35
          omega
        refine ⟨by simp, h35, ?_, hk, ?_⟩
        · intro h64
          simp only [List.headD_cons] at h64
          omega
        · rw [hk, hsplit]
          have := slice_length (b :: tl) 1 33
          simp only [this]
          omega
      · have hsplit : splitFields (b :: tl) =
            (slice (b :: tl) 0 2, slice (b :: tl) 2 34, slice (b :: tl) 34 36) := by
          rw [splitFields, if_neg (by simpa using hb)]
        have hclen2 : (slice (b :: tl) 34 36).length = 2 := by
          rw [hsplit] at hclen
          exact hclen
        have h36 : 36 ≤ (b :: tl).length := by
          have := slice_length (b :: tl) 34 36
          omega
        refine ⟨by simp, by omega, fun _ => h36, hk, ?_⟩
        rw [hk, hsplit]
        have := slice_length (b :: tl) 2 34
        simp only [this]
        omega
    · rw [if_neg hc] at hok
      cases hok

/-- Every byte produced by `b58decode` is below 256. -/
theorem b58decode_lt (s : String) (data : List Nat)
    (h : b58decode s = some data) : ∀ x ∈ data, x < 256 := by
  rw [b58decode] at h
  cases hd : digitsOf s.data with
  | none => rw [hd] at h; cases h
  | some ds =>
    rw [hd] at h
    simp only [Option.some.injEq] at h
    intro x hx
    rw [← h] at hx
    rcases List.mem_append.mp hx with h1 | h1
    · rw [List.eq_of_mem_replicate h1]
      omega
    · exact toDigits_lt 256 (by decide) _ x h1

/-- A character outside the alphabet makes `digitsOf` fail. -/
theorem digitsOf_none_of_bad (l : List Char) (c : Char)
    (hc : c ∈ l) (hbad : c ∉ b58chars) : digitsOf l = none := by
  induction l with
  | nil => cases hc
  | cons a tl ih =>
    rcases List.mem_cons.mp hc with rfl | h2
    · have : charIndex c = none := by
        rw [charIndex, if_neg hbad]
      rw [digitsOf, this]
    · rw [digitsOf, ih h2]
      cases charIndex a <;> rfl

theorem ss58_to_pub32_eq (s : String) (ah : Bool) (data : List Nat)
    (hdec : b58decode s = some data) :
    ss58_to_pub32 s ah = (ss58_to_pub32_bytes data).map
      (fun pubkey => if ah then Sum.inl ("0x" ++ bytesToHex pubkey)
        else Sum.inr pubkey) := by
  rw [ss58_to_pub32, hdec]

/-! ## The claims -/

/-- C1: for every address whose Base58 decoding succeeds with a
nonempty buffer (so the tag-length branch on `data[0]` is defined), the
checksum error is raised if and only if the extracted checksum slice
differs — by exact byte-string equality — from the first 2 bytes of
the 64-byte BLAKE2b digest of `"SS58PRE" || tag || key`, with tag and
key taken per the selected branch. -/
theorem c1_checksum_iff (s : String) (data : List Nat) (ah : Bool)
    (hdec : b58decode s = some data) (hne : data ≠ []) :
    ss58_to_pub32 s ah = .error .checksumError ↔
      (splitFields data).2.2 ≠
        (blake2b (ss58preTag ++ (splitFields data).1 ++
          (splitFields data).2.1)).take 2 := by
  rw [ss58_to_pub32_eq s ah data hdec, except_map_error_iff]
  cases data with
  | nil => exact absurd rfl hne
  | cons b tl =>
    rw [ss58_to_pub32_bytes]
    by_cases hc : (splitFields (b :: tl)).2.2 =
        (blake2b (ss58preTag ++ (splitFields (b :: tl)).1 ++
          (splitFields (b :: tl)).2.1)).take 2
    · rw [if_pos hc]
      constructor
      · intro h
        cases h
      · intro h
        exact absurd hc h
    · rw [if_neg hc]
      exact ⟨fun _ => hc, fun _ => rfl⟩

/-- C1 witness: the address `"2"` decodes to the nonempty buffer `[1]`,
where the checksum comparison indeed fails. -/
theorem c1_checksum_iff_witness :
    ss58_to_pub32 "2" true = .error .checksumError ↔
      (splitFields [1]).2.2 ≠
        (blake2b (ss58preTag ++ (splitFields [1]).1 ++
          (splitFields [1]).2.1)).take 2 :=
  c1_checksum_iff "2" [1] true (by rfl) (by decide)

/-- C2: on a nonempty decoded buffer the split is: first byte below 64
gives tag `data[0:1]`, key `data[1:33]`, checksum `data[33:35]`; first
byte at least 64 gives tag `data[0:2]`, key `data[2:34]`, checksum
`data[34:36]`.  In particular 63 takes the narrow branch and 64 the
wide one. -/
theorem c2_branch_split (b : Nat) (tl : List Nat) :
    (b < 64 → splitFields (b :: tl) =
      (slice (b :: tl) 0 1, slice (b :: tl) 1 33, slice (b :: tl) 33 35)) ∧
    (64 ≤ b → splitFields (b :: tl) =
      (slice (b :: tl) 0 2, slice (b :: tl) 2 34, slice (b :: tl) 34 36)) := by
  constructor
  · intro hb
    rw [splitFields, if_pos (by simpa using hb)]
  · intro hb
    rw [splitFields, if_neg (by simpa using Nat.not_lt.mpr hb)]

/-- C2 witness: the boundary values 63 (narrow branch) and 64 (wide
branch). -/
theorem c2_branch_split_witness :
    splitFields (63 :: List.replicate 35 0) =
      (slice (63 :: List.replicate 35 0) 0 1, slice (63 :: List.replicate 35 0) 1 33,
        slice (63 :: List.replicate 35 0) 33 35) ∧
    splitFields (64 :: List.replicate 35 0) =
      (slice (64 :: List.replicate 35 0) 0 2, slice (64 :: List.replicate 35 0) 2 34,
        slice (64 :: List.replicate 35 0) 34 36) :=
  ⟨(c2_branch_split 63 (List.replicate 35 0)).1 (by decide),
   (c2_branch_split 64 (List.replicate 35 0)).2 (by decide)⟩

/-- C3 counterexample: `"2"` Base58-decodes to the 1-byte buffer `[1]`,
shorter than the 35-byte minimum of its branch, yet the code fails with
the checksum error: no malformed-address error exists, and no length
check precedes the slicing. -/
theorem c3_counterexample :
    b58decode "2" = some [1] ∧ ([1] : List Nat).length < 35 ∧
      ss58_to_pub32 "2" true = .error .checksumError :=
  ⟨by rfl, by decide, by rfl⟩

/-- C3 amended: a nonempty decoded buffer shorter than the selected
branch's minimum length (35 narrow, 36 wide) always fails, but with the
checksum error — the code performs the slices (which come up short) and
the 2-byte recomputed checksum can never equal the short slice.  An
empty buffer fails earlier with the index error. -/
theorem c3_short_error (s : String) (data : List Nat) (ah : Bool)
    (hdec : b58decode s = some data) (hne : data ≠ [])
    (hshort : (data.headD 0 < 64 → data.length < 35) ∧
      (64 ≤ data.headD 0 → data.length < 36)) :
    ss58_to_pub32 s ah = .error .checksumError := by
  rw [ss58_to_pub32_eq s ah data hdec, except_map_error_iff]
  refine (short_checksum_core data hne ?_).2
  by_cases hb : data.headD 0 < 64
  · exact Or.inl ⟨hb, hshort.1 hb⟩
  · exact Or.inr ⟨Nat.not_lt.mp hb, hshort.2 (Nat.not_lt.mp hb)⟩

/-- C3 witness for the amended claim, at the truncated address `"2"`. -/
theorem c3_short_error_witness :
    ss58_to_pub32 "2" false = .error .checksumError :=
  c3_short_error "2" [1] false (by rfl) (by decide) (by decide)

/-- C4 counterexample: appending a trailing byte to a valid 35-byte
buffer gives a 36-byte buffer whose first byte selects the 1-byte-tag
branch, and the code still accepts it — decoded total length is not
"exactly `len(tag) + 32 + 2`". -/
theorem c4_counterexample :
    (okBuf35 ++ [7]).length = 36 ∧ (okBuf35 ++ [7]).headD 0 < 64 ∧
      b58decode (b58encode (okBuf35 ++ [7])) = some (okBuf35 ++ [7]) ∧
      ss58_to_pub32 (b58encode (okBuf35 ++ [7])) false =
        .ok (.inr (List.replicate 32 0)) :=
  ⟨by rfl, by decide, by rfl, by rfl⟩

/-- C4 amended: on success the decoded buffer has length at least
`len(tag) + 32 + 2` (35 for the narrow branch, 36 for the wide one);
the code does not reject extra trailing bytes beyond the checksum. -/
theorem c4_min_length (s : String) (data : List Nat) (ah : Bool)
    (r : String ⊕ List Nat)
    (hdec : b58decode s = some data) (hok : ss58_to_pub32 s ah = .ok r) :
    35 ≤ data.length ∧ (64 ≤ data.headD 0 → 36 ≤ data.length) := by
  rw [ss58_to_pub32_eq s ah data hdec] at hok
  obtain ⟨k, hk, -⟩ := except_map_ok _ _ _ hok
  have h := ok_min_length_core data k hk
  exact ⟨h.2.1, h.2.2.1⟩

/-- C4 witness for the amended claim: a minimal 35-byte accepted
buffer. -/
theorem c4_min_length_witness :
    35 ≤ okBuf35.length ∧ (64 ≤ okBuf35.headD 0 → 36 ≤ okBuf35.length) :=
  c4_min_length (b58encode okBuf35) okBuf35 false (.inr (List.replicate 32 0))
    (by rfl) (by rfl)

/-- C5: on success the result is built from the 32-byte public-key
slice of the decoded buffer, which passed the checksum comparison: hex
mode returns `"0x"` followed by its lowercase hex digits, raw mode the
bytes themselves. -/
theorem c5_output (s : String) (ah : Bool) (r : String ⊕ List Nat)
    (hok : ss58_to_pub32 s ah = .ok r) :
    ∃ data, b58decode s = some data ∧
      (splitFields data).2.1.length = 32 ∧
      ss58_to_pub32_bytes data = .ok (splitFields data).2.1 ∧
      r = (if ah then Sum.inl ("0x" ++ bytesToHex (splitFields data).2.1)
        else Sum.inr (splitFields data).2.1) := by
  cases hdec : b58decode s with
  | none => simp [ss58_to_pub32, hdec] at hok
  | some data =>
    rw [ss58_to_pub32_eq s ah data hdec] at hok
    obtain ⟨k, hk, hr⟩ := except_map_ok _ _ _ hok
    obtain ⟨-, -, -, hkey, hklen⟩ := ok_min_length_core data k hk
    refine ⟨data, rfl, hkey ▸ hklen, hkey ▸ hk, ?_⟩
    rw [hr, hkey]

/-- C5 witness: the spec's known-vector address, in hex mode. -/
theorem c5_output_witness :
    ∃ data, b58decode "5ETsYe7MLH6Mf9xAMgrLhYL2K1fQXBzn7g7bFHXRgFP3FZvT" = some data ∧
      (splitFields data).2.1.length = 32 ∧
      ss58_to_pub32_bytes data = .ok (splitFields data).2.1 ∧
      (Sum.inl "0x6a23ba551f3d2e342e9c4d03098fae3b0185b831b50ac71ce4b496b1694abb56" :
          String ⊕ List Nat) =
        (if true then Sum.inl ("0x" ++ bytesToHex (splitFields data).2.1)
          else Sum.inr (splitFields data).2.1) :=
  c5_output "5ETsYe7MLH6Mf9xAMgrLhYL2K1fQXBzn7g7bFHXRgFP3FZvT" true
    (Sum.inl "0x6a23ba551f3d2e342e9c4d03098fae3b0185b831b50ac71ce4b496b1694abb56")
    (by rfl)

/-- C6: any input containing a character outside the Base58 alphabet
fails with the decode error — before any slicing or hashing, since the
Base58 step itself rejects it. -/
theorem c6_bad_char (s : String) (ah : Bool)
    (hbad : ∃ c ∈ s.data, c ∉ b58chars) :
    ss58_to_pub32 s ah = .error .decodeError := by
  obtain ⟨c, hc, hout⟩ := hbad
  have hnone : b58decode s = none := by
    rw [b58decode, digitsOf_none_of_bad s.data c hc hout]
  rw [ss58_to_pub32, hnone]

/-- C6 witness: the excluded character `O`. -/
theorem c6_bad_char_witness :
    ss58_to_pub32 "O" true = .error .decodeError :=
  c6_bad_char "O" true ⟨'O', by decide, by decide⟩

theorem splitFields_short (p0 : Nat) (k cs : List Nat) (hk : k.length = 32)
    (hcs : cs.length = 2) (hp : p0 < 64) :
    splitFields ([p0] ++ k ++ cs) = ([p0], k, cs) := by
  have hB : [p0] ++ k ++ cs = p0 :: (k ++ cs) := by simp
  rw [hB, splitFields, if_pos (by simpa using hp)]
  have h1 : slice (p0 :: (k ++ cs)) 0 1 = [p0] := by
    simp [slice]
  have h2 : slice (p0 :: (k ++ cs)) 1 33 = k := by
    rw [slice]
    have hd : List.drop 1 (p0 :: (k ++ cs)) = k ++ cs := rfl
    rw [hd, show (33 : Nat) - 1 = 32 from rfl, ← hk, List.take_left]
  have h3 : slice (p0 :: (k ++ cs)) 33 35 = cs := by
    rw [slice]
    have hd : List.drop 33 (p0 :: (k ++ cs)) = List.drop 32 (k ++ cs) := rfl
    rw [hd, ← hk, List.drop_left, show (35 : Nat) - 33 = 2 from rfl, ← hcs,
      List.take_length]
  rw [h1, h2, h3]

theorem splitFields_long (p0 p1 : Nat) (k cs : List Nat) (hk : k.length = 32)
    (hcs : cs.length = 2) (hp : 64 ≤ p0) :
    splitFields ([p0, p1] ++ k ++ cs) = ([p0, p1], k, cs) := by
  have hB : [p0, p1] ++ k ++ cs = p0 :: p1 :: (k ++ cs) := by simp
  rw [hB, splitFields, if_neg (by simpa using Nat.not_lt.mpr hp)]
  have h1 : slice (p0 :: p1 :: (k ++ cs)) 0 2 = [p0, p1] := by
    simp [slice]
  have h2 : slice (p0 :: p1 :: (k ++ cs)) 2 34 = k := by
    rw [slice]
    have hd : List.drop 2 (p0 :: p1 :: (k ++ cs)) = k ++ cs := rfl
    rw [hd, show (34 : Nat) - 2 = 32 from rfl, ← hk, List.take_left]
  have h3 : slice (p0 :: p1 :: (k ++ cs)) 34 36 = cs := by
    rw [slice]
    have hd : List.drop 34 (p0 :: p1 :: (k ++ cs)) = List.drop 32 (k ++ cs) := rfl
    rw [hd, ← hk, List.drop_left, show (36 : Nat) - 34 = 2 from rfl, ← hcs,
      List.take_length]
  rw [h1, h2, h3]

/-- A well-formed buffer `tag || key || checksum` with a
branch-consistent tag passes validation and yields the key. -/
theorem ss58_bytes_wellformed (pfx k : List Nat) (hk : k.length = 32)
    (hp : (pfx.length = 1 ∧ pfx.headD 0 < 64) ∨
      (pfx.length = 2 ∧ 64 ≤ pfx.headD 0)) :
    ss58_to_pub32_bytes
      (pfx ++ k ++ (blake2b (ss58preTag ++ pfx ++ k)).take 2) = .ok k := by
  have hcslen : ((blake2b (ss58preTag ++ pfx ++ k)).take 2).length = 2 :=
    blake2b_take2_length _
  rcases hp with ⟨hlen, hb⟩ | ⟨hlen, hb⟩
  · obtain ⟨p0, rfl⟩ := List.length_eq_one.mp hlen
    have hsf := splitFields_short p0 k _ hk hcslen (by simpa using hb)
    have hBcons : [p0] ++ k ++ (blake2b (ss58preTag ++ [p0] ++ k)).take 2 =
        p0 :: (k ++ (blake2b (ss58preTag ++ [p0] ++ k)).take 2) := by simp
    rw [hBcons] at hsf ⊢
    simp only [ss58_to_pub32_bytes, hsf]
    simp
  · obtain ⟨p0, p1, rfl⟩ : ∃ a b, pfx = [a, b] := by
      cases pfx with
      | nil => cases hlen
      | cons a tl =>
        cases tl with
        | nil => cases hlen
        | cons b tl2 =>
          cases tl2 with
          | nil => exact ⟨a, b, rfl⟩
          | cons c tl3 => cases hlen
    have hsf := splitFields_long p0 p1 k _ hk hcslen (by simpa using hb)
    have hBcons : [p0, p1] ++ k ++ (blake2b (ss58preTag ++ [p0, p1] ++ k)).take 2 =
        p0 :: p1 :: (k ++ (blake2b (ss58preTag ++ [p0, p1] ++ k)).take 2) := by simp
    rw [hBcons] at hsf ⊢
    simp only [ss58_to_pub32_bytes, hsf]
    simp

/-- C7 counterexample: the spec admits every 1-or-2-byte tag, but for
the 1-byte tag `[64]` the encoded address decodes down the 2-byte
branch, so the round trip fails with the checksum error instead of
returning the key. -/
theorem c7_counterexample :
    ((ss58_encode (List.replicate 32 0) [64]).bind fun s =>
      ss58_to_pub32 s false) = .error .checksumError := by rfl

/-- C7 amended: the round trip `decode (encode k p) = k` holds for every
32-byte key and every branch-consistent tag: 1 byte below 64, or 2
bytes with the first at least 64 (all bytes below 256). -/
theorem c7_roundtrip (k pfx : List Nat) (s : String)
    (hk32 : k.length = 32) (hkb : ∀ x ∈ k, x < 256)
    (hp : (pfx.length = 1 ∧ pfx.headD 0 < 64) ∨
      (pfx.length = 2 ∧ 64 ≤ pfx.headD 0))
    (hpb : ∀ x ∈ pfx, x < 256)
    (henc : ss58_encode k pfx = .ok s) :
    ss58_to_pub32 s false = .ok (.inr k) := by
  have hplen : pfx.length = 1 ∨ pfx.length = 2 := by
    rcases hp with ⟨h, _⟩ | ⟨h, _⟩
    · exact Or.inl h
    · exact Or.inr h
  rw [ss58_encode, if_pos ⟨hk32, hplen⟩] at henc
  injection henc with hs
  have hBlt : ∀ x ∈ pfx ++ k ++ (blake2b (ss58preTag ++ pfx ++ k)).take 2,
      x < 256 := by
    intro x hx
    rcases List.mem_append.mp hx with h1 | h1
    · rcases List.mem_append.mp h1 with h2 | h2
      · exact hpb x h2
      · exact hkb x h2
    · exact blake2b_lt _ x (List.take_subset _ _ h1)
  have hdec : b58decode s =
      some (pfx ++ k ++ (blake2b (ss58preTag ++ pfx ++ k)).take 2) := by
    rw [← hs]
    exact b58decode_b58encode _ hBlt
  rw [ss58_to_pub32_eq s false _ hdec, ss58_bytes_wellformed pfx k hk32 hp]
  rfl

/-- C7 witness for the amended claim: the all-zero key under the 1-byte
tag `42`. -/
theorem c7_roundtrip_witness :
    ss58_to_pub32 "5C4hrfjw9DjXZTzV3MwzrrAr9P1MJhSrvWGWqi1eSuyUpnhM" false =
      .ok (.inr (List.replicate 32 0)) :=
  c7_roundtrip (List.replicate 32 0) [42]
    "5C4hrfjw9DjXZTzV3MwzrrAr9P1MJhSrvWGWqi1eSuyUpnhM"
    (by decide) (by decide) (Or.inl ⟨by decide, by decide⟩) (by decide) (by rfl)

/-- C8: the codec is a pure function of its arguments: equal address
strings and equal flags give identical results, with no state to
mutate between calls. -/
theorem c8_deterministic (s1 s2 : String) (a1 a2 : Bool)
    (hs : s1 = s2) (ha : a1 = a2) :
    ss58_to_pub32 s1 a1 = ss58_to_pub32 s2 a2 := by
  rw [hs, ha]

/-- C8 witness: two calls on the same valid address agree. -/
theorem c8_deterministic_witness :
    ss58_to_pub32 "5ETsYe7MLH6Mf9xAMgrLhYL2K1fQXBzn7g7bFHXRgFP3FZvT" true =
      ss58_to_pub32 "5ETsYe7MLH6Mf9xAMgrLhYL2K1fQXBzn7g7bFHXRgFP3FZvT" true :=
  c8_deterministic _ _ true true rfl rfl

/-- C9: a buffer that decodes to the empty byte string hits `data[0]`
out of bounds: the call fails with the index error — not the decode,
checksum (or any malformed-address) error — and returns nothing. -/
theorem c9_empty_buffer (s : String) (ah : Bool)
    (hdec : b58decode s = some []) :
    ss58_to_pub32 s ah = .error .indexError ∧
      Ss58Error.indexError ≠ .decodeError ∧
      Ss58Error.indexError ≠ .checksumError := by
  refine ⟨?_, by decide, by decide⟩
  rw [ss58_to_pub32_eq s ah [] hdec]
  rfl

/-- C9 witness: the empty address string decodes to the empty buffer. -/
theorem c9_empty_buffer_witness :
    ss58_to_pub32 "" true = .error .indexError ∧
      Ss58Error.indexError ≠ .decodeError ∧
      Ss58Error.indexError ≠ .checksumError :=
  c9_empty_buffer "" true (by rfl)

/-- C10: a nonempty buffer shorter than its branch's minimum leaves a
checksum slice of fewer than 2 bytes, while the recomputed checksum has
exactly 2, so the comparison always fails and the checksum error is
raised — a truncated input never yields a key. -/
theorem c10_truncated (data : List Nat) (hne : data ≠ [])
    (hshort : (data.headD 0 < 64 ∧ data.length < 35) ∨
      (64 ≤ data.headD 0 ∧ data.length < 36)) :
    (splitFields data).2.2.length < 2 ∧
      ((blake2b (ss58preTag ++ (splitFields data).1 ++
        (splitFields data).2.1)).take 2).length = 2 ∧
      ss58_to_pub32_bytes data = .error .checksumError := by
  obtain ⟨h1, h2⟩ := short_checksum_core data hne hshort
  exact ⟨h1, blake2b_take2_length _, h2⟩

/-- C10 witness: the 1-byte buffer `[1]`. -/
theorem c10_truncated_witness :
    (splitFields [1]).2.2.length < 2 ∧
      ((blake2b (ss58preTag ++ (splitFields [1]).1 ++
        (splitFields [1]).2.1)).take 2).length = 2 ∧
      ss58_to_pub32_bytes [1] = .error .checksumError :=
  c10_truncated [1] (by decide) (Or.inl ⟨by decide, by decide⟩)

end Sink
